import Mathlib

/-!
Verification of the maia-fish engine session core against its specification.

The definitions below are a shallow embedding of `src/main/uci-engine.ts`
(the EventEmitter-based `UciEngine` class), of the output aggregation in the
main-process IPC setup, and of the depth guard in
`src/renderer/src/engine.svelte.ts`.  JavaScript numbers that arise from
`parseInt` are modelled as `Option Int`, with `none` standing for `NaN`
(a failed parse) and for `undefined` token reads past the end of the line.
-/

namespace MaiaFish

/-- Evaluation score, from the shared `Score` type: `type` is the literal
token `"cp"` or `"mate"`, `bound` the literal `"lower"` or `"upper"` when a
bound flag followed the score. -/
structure Score where
  type : String
  value : Option Int
  bound : Option String
  deriving DecidableEq, Repr

/-- Result of parsing one UCI `info` line, from the shared `UciMoveInfo`
interface.  Unknown keys land in `extra` (the `[key: string]: unknown`
index signature); its values are the raw token following the key, `none`
when the key was the last token of the line. -/
structure UciMoveInfo where
  depth : Option Int := none
  seldepth : Option Int := none
  multipv : Option Int := none
  score : Option Score := none
  upperbound : Option Int := none
  lowerbound : Option Int := none
  nodes : Option Int := none
  nps : Option Int := none
  hashfull : Option Int := none
  tbhits : Option Int := none
  time : Option Int := none
  pv : Option (List String) := none
  currmove : Option String := none
  currmovenumber : Option Int := none
  extra : List (String × Option String) := []
  deriving DecidableEq, Repr

/-- Model of JavaScript `parseInt(s, 10)`: an optional sign followed by the
longest leading run of decimal digits; `none` models `NaN`. -/
def parseIntDigits (s : String) : Option Int :=
  let cs := s.toList
  let signed : Bool × List Char :=
    match cs with
    | '-' :: rest => (true, rest)
    | '+' :: rest => (false, rest)
    | _ => (false, cs)
  let digits := signed.2.takeWhile Char.isDigit
  if digits.isEmpty then none
  else
    let n : Nat := digits.foldl (fun acc c => acc * 10 + (c.toNat - 48)) 0
    some (if signed.1 then -(n : Int) else (n : Int))

/-- JavaScript `parseInt(tokens[i], 10)` where the token may be `undefined`
(read past the end of the token array). -/
def jsParseInt : Option String → Option Int
  | none => none
  | some s => parseIntDigits s

/-- Accumulating scan behind `tokenize`: `acc` holds the characters of the
current token in reverse. -/
def tokenizeChars (acc : List Char) : List Char → List String
  | [] => if acc.isEmpty then [] else [String.mk acc.reverse]
  | c :: cs =>
    if c.isWhitespace then
      if acc.isEmpty then tokenizeChars [] cs
      else String.mk acc.reverse :: tokenizeChars [] cs
    else tokenizeChars (c :: acc) cs

/-- Tokenisation used by `parseUciMoveInfo`: `line.trim().split(/\s+/)`,
modelled as cutting the line at maximal whitespace runs. -/
def tokenize (line : String) : List String :=
  tokenizeChars [] line.toList

/-- Assignment `obj[key] = v` on the dynamic part of a `UciMoveInfo`
object: replaces the value at `key` when present, appends otherwise. -/
def setAssoc (m : List (String × Option String)) (key : String) (v : Option String) :
    List (String × Option String) :=
  match m with
  | [] => [(key, v)]
  | (k', v') :: rest => if k' = key then (key, v) :: rest else (k', v') :: setAssoc rest key v

/-- Keys handled by a dedicated `case` in the token walk of
`parseUciMoveInfo`; every other key is an unknown key. -/
def knownKeys : List String :=
  ["depth", "seldepth", "multipv", "score", "upperbound", "lowerbound", "nodes",
   "nps", "hashfull", "tbhits", "time", "currmove", "currmovenumber", "pv"]

/-- Outcome of one iteration of the token walk: continue with an updated
record and the remaining tokens, finish (the `pv` case sets
`i = tokens.length`), or fail (a `throw`). -/
inductive StepRes
  | cont (info : UciMoveInfo) (rest : List String)
  | done (info : UciMoveInfo)
  | err (msg : String)
  deriving DecidableEq, Repr

/-- The `case "score"` arm of the key switch: consume a kind token and a
value token, then an optional `lowerbound`/`upperbound` flag; unknown kinds
are a thrown error. -/
def scoreStep (info : UciMoveInfo) (rest : List String) : StepRes :=
  match rest with
  | [] => .err "Unknown score kind: undefined"
  | kind :: rest2 =>
    if kind = "cp" ∨ kind = "mate" then
      match rest2 with
      | [] => .cont { info with score := some ⟨kind, none, none⟩ } []
      | v :: "lowerbound" :: rest4 =>
        .cont { info with score := some ⟨kind, jsParseInt (some v), some "lower"⟩ } rest4
      | v :: "upperbound" :: rest4 =>
        .cont { info with score := some ⟨kind, jsParseInt (some v), some "upper"⟩ } rest4
      | v :: rest3 =>
        .cont { info with score := some ⟨kind, jsParseInt (some v), none⟩ } rest3
    else .err ("Unknown score kind: " ++ kind)

/-- One iteration of the `while (i < tokens.length)` loop of
`parseUciMoveInfo`: the `switch` on the key token.  `rest` holds the tokens
after the key; reading `tokens[i++]` is `rest.head?` followed by dropping to
`rest.tail`.  Each numeric key consumes one token through `parseInt`; `pv`
consumes every remaining token and ends the walk; an unknown key (the
`default` arm) consumes exactly one following token, stored verbatim under
that key. -/
def walkStep (info : UciMoveInfo) (key : String) (rest : List String) : StepRes :=
  if key = "depth" then .cont { info with depth := jsParseInt rest.head? } rest.tail
  else if key = "seldepth" then .cont { info with seldepth := jsParseInt rest.head? } rest.tail
  else if key = "multipv" then .cont { info with multipv := jsParseInt rest.head? } rest.tail
  else if key = "score" then scoreStep info rest
  else if key = "upperbound" then .cont { info with upperbound := jsParseInt rest.head? } rest.tail
  else if key = "lowerbound" then .cont { info with lowerbound := jsParseInt rest.head? } rest.tail
  else if key = "nodes" then .cont { info with nodes := jsParseInt rest.head? } rest.tail
  else if key = "nps" then .cont { info with nps := jsParseInt rest.head? } rest.tail
  else if key = "hashfull" then .cont { info with hashfull := jsParseInt rest.head? } rest.tail
  else if key = "tbhits" then .cont { info with tbhits := jsParseInt rest.head? } rest.tail
  else if key = "time" then .cont { info with time := jsParseInt rest.head? } rest.tail
  else if key = "currmove" then .cont { info with currmove := rest.head? } rest.tail
  else if key = "currmovenumber" then .cont { info with currmovenumber := jsParseInt rest.head? } rest.tail
  else if key = "pv" then .done { info with pv := some rest }
  else .cont { info with extra := setAssoc info.extra key rest.head? } rest.tail

/-- The token walk of `parseUciMoveInfo`, iterating `walkStep`.  The loop in
the source terminates because every iteration consumes at least the key
token; the fuel argument makes that measure explicit and is never exhausted
when it starts at the token count. -/
def walkAux : Nat → UciMoveInfo → List String → Except String UciMoveInfo
  | _, info, [] => .ok info
  | 0, info, _ :: _ => .ok info
  | fuel + 1, info, key :: rest =>
    match walkStep info key rest with
    | .cont info' rest' => walkAux fuel info' rest'
    | .done info' => .ok info'
    | .err m => .error m

/-- The token walk of `parseUciMoveInfo` on a token list. -/
def walk (info : UciMoveInfo) (tokens : List String) : Except String UciMoveInfo :=
  walkAux tokens.length info tokens

/-- Parse a single UCI `info` line into a `UciMoveInfo`
(function `parseUciMoveInfo` of `src/main/uci-engine.ts`): tokenize, require
the leading token `info`, then walk the remaining tokens. -/
def parseUciMoveInfo (line : String) : Except String UciMoveInfo :=
  match tokenize line with
  | "info" :: rest => walk {} rest
  | _ => .error "Not a UCI info line"

/-- The score arm never produces more remaining tokens than it was given. -/
lemma scoreStep_cont_length (info : UciMoveInfo) (rest : List String)
    (info' : UciMoveInfo) (rest' : List String)
    (h : scoreStep info rest = .cont info' rest') : rest'.length ≤ rest.length := by
  unfold scoreStep at h
  split at h
  · simp at h
  · split_ifs at h
    split at h <;>
      (obtain ⟨-, h2⟩ := StepRes.cont.injEq .. |>.mp h) <;> subst h2 <;> simp <;> try omega

/-- Every arm of the key switch either continues on the tail of the given
tokens, defers to the score arm, or finishes the walk. -/
lemma walkStep_shape (info : UciMoveInfo) (key : String) (rest : List String) :
    (∃ info', walkStep info key rest = .cont info' rest.tail) ∨
    walkStep info key rest = scoreStep info rest ∨
    (∃ info', walkStep info key rest = .done info') := by
  unfold walkStep
  by_cases h1 : key = "depth"
  · rw [if_pos h1]; exact Or.inl ⟨_, rfl⟩
  rw [if_neg h1]
  by_cases h2 : key = "seldepth"
  · rw [if_pos h2]; exact Or.inl ⟨_, rfl⟩
  rw [if_neg h2]
  by_cases h3 : key = "multipv"
  · rw [if_pos h3]; exact Or.inl ⟨_, rfl⟩
  rw [if_neg h3]
  by_cases h4 : key = "score"
  · rw [if_pos h4]; exact Or.inr (Or.inl rfl)
  rw [if_neg h4]
  by_cases h5 : key = "upperbound"
  · rw [if_pos h5]; exact Or.inl ⟨_, rfl⟩
  rw [if_neg h5]
  by_cases h6 : key = "lowerbound"
  · rw [if_pos h6]; exact Or.inl ⟨_, rfl⟩
  rw [if_neg h6]
  by_cases h7 : key = "nodes"
  · rw [if_pos h7]; exact Or.inl ⟨_, rfl⟩
  rw [if_neg h7]
  by_cases h8 : key = "nps"
  · rw [if_pos h8]; exact Or.inl ⟨_, rfl⟩
  rw [if_neg h8]
  by_cases h9 : key = "hashfull"
  · rw [if_pos h9]; exact Or.inl ⟨_, rfl⟩
  rw [if_neg h9]
  by_cases h10 : key = "tbhits"
  · rw [if_pos h10]; exact Or.inl ⟨_, rfl⟩
  rw [if_neg h10]
  by_cases h11 : key = "time"
  · rw [if_pos h11]; exact Or.inl ⟨_, rfl⟩
  rw [if_neg h11]
  by_cases h12 : key = "currmove"
  · rw [if_pos h12]; exact Or.inl ⟨_, rfl⟩
  rw [if_neg h12]
  by_cases h13 : key = "currmovenumber"
  · rw [if_pos h13]; exact Or.inl ⟨_, rfl⟩
  rw [if_neg h13]
  by_cases h14 : key = "pv"
  · rw [if_pos h14]; exact Or.inr (Or.inr ⟨_, rfl⟩)
  rw [if_neg h14]
  exact Or.inl ⟨_, rfl⟩

/-- A loop iteration never produces more remaining tokens than it was
given. -/
lemma walkStep_cont_length (info : UciMoveInfo) (key : String) (rest : List String)
    (info' : UciMoveInfo) (rest' : List String)
    (h : walkStep info key rest = .cont info' rest') : rest'.length ≤ rest.length := by
  rcases walkStep_shape info key rest with ⟨info'', hc⟩ | hsc | ⟨info'', hd⟩
  · rw [hc] at h
    obtain ⟨-, h2⟩ := StepRes.cont.injEq .. |>.mp h
    subst h2
    rw [List.length_tail]
    omega
  · rw [hsc] at h
    exact scoreStep_cont_length info rest info' rest' h
  · rw [hd] at h
    cases h

/-- On a key outside the known set, the switch falls to the `default` arm:
the key consumes exactly one following token, stored verbatim in the
dynamic part of the record. -/
lemma walkStep_unknown (info : UciMoveInfo) (key : String) (rest : List String)
    (h : key ∉ knownKeys) :
    walkStep info key rest =
      .cont { info with extra := setAssoc info.extra key rest.head? } rest.tail := by
  simp only [knownKeys, List.mem_cons, List.not_mem_nil, or_false] at h
  push_neg at h
  obtain ⟨h1, h2, h3, h4, h5, h6, h7, h8, h9, h10, h11, h12, h13, h14⟩ := h
  unfold walkStep
  rw [if_neg h1, if_neg h2, if_neg h3, if_neg h4, if_neg h5, if_neg h6, if_neg h7, if_neg h8,
    if_neg h9, if_neg h10, if_neg h11, if_neg h12, if_neg h13, if_neg h14]

/-- Fuel irrelevance for `walkAux`: any fuel at least the token count
computes the loop's value. -/
lemma walkAux_fuel (fuel1 : Nat) :
    ∀ (fuel2 : Nat) (info : UciMoveInfo) (tokens : List String),
      tokens.length ≤ fuel1 → tokens.length ≤ fuel2 →
      walkAux fuel1 info tokens = walkAux fuel2 info tokens := by
  induction fuel1 with
  | zero =>
    intro fuel2 info tokens h1 _
    cases tokens with
    | nil => cases fuel2 <;> rfl
    | cons key rest => simp at h1
  | succ f ih =>
    intro fuel2 info tokens h1 h2
    cases tokens with
    | nil => cases fuel2 <;> rfl
    | cons key rest =>
      cases fuel2 with
      | zero => simp at h2
      | succ f2 =>
        simp only [walkAux]
        cases hs : walkStep info key rest with
        | cont info' rest' =>
          have hlen := walkStep_cont_length info key rest info' rest' hs
          simp only [List.length_cons] at h1 h2
          exact ih f2 info' rest' (by omega) (by omega)
        | done info' => rfl
        | err m => rfl

/-- Engine session state, from the shared union type `EngineState`:
`"unloaded" | "idle" | "running" | "waitingBestMoveToIdle" |
"waitingBestMoveToRun"`.  The specification names these `Unloaded`, `Idle`,
`Running`, `StoppingToIdle` and `StoppingToRun`. -/
inductive EngineState
  | unloaded
  | idle
  | running
  | waitingBestMoveToIdle
  | waitingBestMoveToRun
  deriving DecidableEq, Repr

/-- The mutable fields of the `UciEngine` class that the analysis state
machine reads and writes: the current state, the coalesced pending position
(`pendingPosition`) and the pending depth (`pendingDepth`, `0` meaning
infinite). -/
structure Session where
  state : EngineState
  pendingPosition : Option String
  pendingDepth : Nat
  deriving DecidableEq, Repr

/-- A command line written to the engine process.  `render` gives the exact
text passed to `send`. -/
inductive Cmd
  | uci
  | isready
  | ucinewgame
  | stop
  | position (s : String)
  | go (depth : Nat)
  | setoption (name value : String)
  deriving DecidableEq, Repr

/-- The text a command puts on the wire, exactly as built by the template
strings in the source; a `go` with depth `0` is the falsy-depth case and
renders as `go infinite`. -/
def Cmd.render : Cmd → String
  | .uci => "uci"
  | .isready => "isready"
  | .ucinewgame => "ucinewgame"
  | .stop => "stop"
  | .position s => "position " ++ s
  | .go 0 => "go infinite"
  | .go (d + 1) => "go depth " ++ toString (d + 1)
  | .setoption n v => "setoption name " ++ n ++ " value " ++ v

/-- Method `sendPendingPosition`: if a pending position is stored, write the
`position` command for it and clear it, otherwise do nothing. -/
def sendPendingPosition (s : Session) : Session × List Cmd :=
  match s.pendingPosition with
  | some p => ({ s with pendingPosition := none }, [Cmd.position p])
  | none => (s, [])

/-- Method `go(depth = 0)`: from `idle` flush the pending position, write
the `go` command and clear the pending depth; while `running` warn and do
nothing; from either waiting state move to `waitingBestMoveToRun` and store
the depth as pending.  The third component records whether the returned
promise is a new `once("bestmove")` waiter: the method returns one exactly
when the depth is non-zero and the `running` early return was not taken. -/
def goMethod (depth : Nat) (s : Session) : Session × List Cmd × Bool :=
  match s.state with
  | .idle =>
    let r := sendPendingPosition { s with state := .running }
    ({ r.1 with pendingDepth := 0 }, r.2 ++ [Cmd.go depth], depth ≠ 0)
  | .running => (s, [], false)
  | .waitingBestMoveToIdle =>
    ({ s with state := .waitingBestMoveToRun, pendingDepth := depth }, [], depth ≠ 0)
  | .waitingBestMoveToRun =>
    ({ s with state := .waitingBestMoveToRun, pendingDepth := depth }, [], depth ≠ 0)
  | .unloaded => (s, [], depth ≠ 0)

/-- Method `stop()`: from `running` write one `stop` line and move to
`waitingBestMoveToIdle`; from `waitingBestMoveToRun` move to
`waitingBestMoveToIdle` with no protocol write; otherwise do nothing. -/
def stopMethod (s : Session) : Session × List Cmd :=
  match s.state with
  | .running => ({ s with state := .waitingBestMoveToIdle }, [Cmd.stop])
  | .waitingBestMoveToRun => ({ s with state := .waitingBestMoveToIdle }, [])
  | _ => (s, [])

/-- Method `position(str)`: store the string as the pending position (last
write wins); from `running` additionally write `stop` and move to
`waitingBestMoveToRun`; from `waitingBestMoveToIdle` move to
`waitingBestMoveToRun` with no write; otherwise only the pending position
changes. -/
def positionMethod (p : String) (s : Session) : Session × List Cmd :=
  let s0 := { s with pendingPosition := some p }
  match s0.state with
  | .waitingBestMoveToIdle => ({ s0 with state := .waitingBestMoveToRun }, [])
  | .running => ({ s0 with state := .waitingBestMoveToRun }, [Cmd.stop])
  | _ => (s0, [])

/-- Method `setOption(name, value)`: outside `idle` it throws before any
write; in `idle` it writes one `setoption` line. -/
def setOptionMethod (name value : String) (s : Session) : Except String (Session × List Cmd) :=
  if s.state ≠ .idle then
    .error "Called setOption while engine is not in the stopped state."
  else
    .ok (s, [Cmd.setoption name value])

/-- Method `handleBestMove`, the state transition on receiving a `bestmove`
line: in `idle` it throws; from `running` or `waitingBestMoveToIdle` it
clears the pending intent and returns to `idle`; from
`waitingBestMoveToRun` it restarts: flush the pending position, write `go`
with the pending depth (`0` rendering as `go infinite`), clear the pending
depth; in `unloaded` (the `default` arm) it does nothing. -/
def handleBestMove (s : Session) : Except String (Session × List Cmd) :=
  match s.state with
  | .idle => .error "handleBestMove: Should not be in state idle."
  | .running =>
    .ok ({ s with state := .idle, pendingDepth := 0, pendingPosition := none }, [])
  | .waitingBestMoveToIdle =>
    .ok ({ s with state := .idle, pendingDepth := 0, pendingPosition := none }, [])
  | .waitingBestMoveToRun =>
    let r := sendPendingPosition { s with state := .running }
    .ok ({ r.1 with pendingDepth := 0 }, r.2 ++ [Cmd.go s.pendingDepth])
  | .unloaded => .ok (s, [])

/-- One observable item at the process boundary: a command line written to
the process, a `bestmove` line received from it, or the replacement of the
process by a fresh one (`kill` plus `spawn` inside `start`). -/
inductive Item
  | cmd (c : Cmd)
  | evBestmove
  | procBoundary
  deriving DecidableEq, Repr

/-- An event hitting the session: a public method call, the resolution of
the `uci` handshake, a line event from the process, or a process exit.
`newGame` is covered by composition: its synchronous prefix is `stopOp`
when the engine is running (the method awaits `stop()`), and
`newGameFinishOp` is its continuation that writes `ucinewgame` and
`isready` once the awaited promise resolves.  `startOp` is `start`: `kill`
(state to `unloaded`) followed by spawning a fresh process and sending
`uci`; `uciokEv` is the resolution of the handshake wait inside `uci()`,
which can only fire while the state is still `unloaded` because no other
code path leaves `unloaded`.  `procExitEv` is an `exit` of the child
process, for which `start` installs no handler. -/
inductive Ev
  | goOp (depth : Nat)
  | stopOp
  | positionOp (p : String)
  | setOptionOp (name value : String)
  | newGameFinishOp
  | startOp
  | uciokEv
  | bestmoveEv (move : String)
  | readyokEv
  | procExitEv
  deriving DecidableEq, Repr

/-- Execution context of one session: the mutable fields, the id supply for
promises created by `go`/`stop`/`position`, the ids currently registered as
`once("bestmove")` listeners on the emitter, the resolutions delivered so
far (listener id paired with the move it received), the items observed at
the process boundary, and the errors thrown by handlers. -/
structure Exec where
  sess : Session
  nextId : Nat
  waiting : List Nat
  resolutions : List (Nat × String)
  items : List Item
  errors : List String
  deriving DecidableEq, Repr

/-- Register a fresh `once("bestmove")` listener, as
`new Promise((resolve) => this.once("bestmove", resolve))` does. -/
def registerFuture (e : Exec) : Exec :=
  { e with nextId := e.nextId + 1, waiting := e.waiting ++ [e.nextId] }

/-- Append written command lines to the observed items. -/
def addItems (e : Exec) (w : List Cmd) : Exec :=
  { e with items := e.items ++ w.map Item.cmd }

/-- Whether `waitBestMovePromise` returns a fresh waiter: it does exactly
when the state is one of the two waiting states, otherwise the promise is
already resolved. -/
def waitsBestMove (s : Session) : Bool :=
  s.state = EngineState.waitingBestMoveToIdle || s.state = EngineState.waitingBestMoveToRun

/-- One step of the session under an event, combining the method bodies
with the emitter semantics of `handleLine`: a `bestmove` line first
resolves every registered `once("bestmove")` listener with the parsed move
(`this.emit("bestmove", ...)`) and only then runs `handleBestMove`; a
thrown error is recorded and leaves the fields as they were at the throw.
A process exit leaves the context untouched because `start` installs no
exit handler. -/
def step (e : Exec) : Ev → Exec
  | .goOp d =>
    let r := goMethod d e.sess
    let e1 := addItems { e with sess := r.1 } r.2.1
    if r.2.2 then registerFuture e1 else e1
  | .stopOp =>
    let r := stopMethod e.sess
    let e1 := addItems { e with sess := r.1 } r.2
    if waitsBestMove r.1 then registerFuture e1 else e1
  | .positionOp p =>
    let r := positionMethod p e.sess
    let e1 := addItems { e with sess := r.1 } r.2
    if waitsBestMove r.1 then registerFuture e1 else e1
  | .setOptionOp n v =>
    match setOptionMethod n v e.sess with
    | .ok r => addItems { e with sess := r.1 } r.2
    | .error msg => { e with errors := e.errors ++ [msg] }
  | .newGameFinishOp => addItems e [Cmd.ucinewgame, Cmd.isready]
  | .startOp =>
    { e with sess := { e.sess with state := .unloaded },
             items := e.items ++ [Item.procBoundary, Item.cmd Cmd.uci] }
  | .uciokEv =>
    if e.sess.state = EngineState.unloaded then
      { e with sess := { e.sess with state := .idle } }
    else e
  | .bestmoveEv m =>
    let e1 := { e with waiting := [],
                       resolutions := e.resolutions ++ e.waiting.map (fun id => (id, m)),
                       items := e.items ++ [Item.evBestmove] }
    match handleBestMove e1.sess with
    | .ok r => addItems { e1 with sess := r.1 } r.2
    | .error msg => { e1 with errors := e1.errors ++ [msg] }
  | .readyokEv => e
  | .procExitEv => e

/-- Run a list of events from a context. -/
def runExec (e : Exec) : List Ev → Exec
  | [] => e
  | ev :: evs => runExec (step e ev) evs

/-- The context of a freshly constructed session: state `unloaded`, no
pending intent, nothing observed. -/
def initExec : Exec :=
  { sess := { state := .unloaded, pendingPosition := none, pendingDepth := 0 },
    nextId := 0, waiting := [], resolutions := [], items := [], errors := [] }

/-- The context of a session right after a successful handshake: state
`idle`, no pending intent, with the handshake traffic elided. -/
def idleExec : Exec :=
  { sess := { state := .idle, pendingPosition := none, pendingDepth := 0 },
    nextId := 0, waiting := [], resolutions := [], items := [], errors := [] }

/-- Whether an observed item is a `go` command line written to the process.
No other command's wire text begins with `go`. -/
def isGoItem : Item → Bool
  | .cmd (Cmd.go _) => true
  | _ => false

/-- Scanning state for the go/bestmove alternation check: `some n` counts
the `go` lines written since the last `bestmove` line (or process
replacement); a second `go` with no `bestmove` in between collapses to
`none`, marking a protocol violation. -/
def goCtrStep (acc : Option Nat) (it : Item) : Option Nat :=
  match acc with
  | none => none
  | some n =>
    if isGoItem it then (if n = 0 then some 1 else none)
    else
      match it with
      | .evBestmove => some 0
      | .procBoundary => some 0
      | _ => some n

/-- Result of scanning a whole item trace for the alternation check. -/
def goCtr (t : List Item) : Option Nat := t.foldl goCtrStep (some 0)

/-- A trace is alternation-clean when the scan never collapses: the process
never received two `go` lines without an intervening `bestmove` (within the
lifetime of one spawned process). -/
def goAlternationOk (t : List Item) : Bool := (goCtr t).isSome

lemma goCtr_append (t u : List Item) : goCtr (t ++ u) = u.foldl goCtrStep (goCtr t) := by
  simp [goCtr, List.foldl_append]

/-- Inductive invariant tying the session state to the trace scan: the scan
is clean with count at most one, and the count is zero whenever the state
is `idle` or `unloaded` (no search outstanding). -/
def StInv (st : EngineState) (t : List Item) : Prop :=
  ∃ n, goCtr t = some n ∧ n ≤ 1 ∧
    (st = EngineState.idle → n = 0) ∧ (st = EngineState.unloaded → n = 0)

/-- The invariant on an execution context. -/
def ExecInv (e : Exec) : Prop := StInv e.sess.state e.items

lemma execInv_reg_if (b : Bool) (e : Exec) :
    ExecInv (if b then registerFuture e else e) ↔ ExecInv e := by
  cases b <;> exact Iff.rfl

/-- Every step of the session preserves the alternation invariant. -/
lemma execInv_step (e : Exec) (ev : Ev) (h : ExecInv e) : ExecInv (step e ev) := by
  obtain ⟨n, hn, hle, hid, hun⟩ := h
  cases ev with
  | goOp d =>
    cases hs : e.sess.state with
    | idle =>
      have hn0 : n = 0 := hid hs
      subst hn0
      rw [step]
      cases hp : e.sess.pendingPosition with
      | none =>
        simp only [goMethod, hs, hp, sendPendingPosition, addItems, execInv_reg_if]
        exact ⟨1, by simp [goCtr_append, hn, goCtrStep, isGoItem], by omega, by simp, by simp⟩
      | some p =>
        simp only [goMethod, hs, hp, sendPendingPosition, addItems, execInv_reg_if]
        exact ⟨1, by simp [goCtr_append, hn, goCtrStep, isGoItem], by omega, by simp, by simp⟩
    | running =>
      rw [step]
      simp only [goMethod, hs, addItems, execInv_reg_if]
      exact ⟨n, by simp [goCtr_append, hn, goCtrStep], hle, by simp [hs], by simp [hs]⟩
    | waitingBestMoveToIdle =>
      rw [step]
      simp only [goMethod, hs, addItems, execInv_reg_if]
      exact ⟨n, by simp [goCtr_append, hn, goCtrStep], hle, by simp, by simp⟩
    | waitingBestMoveToRun =>
      rw [step]
      simp only [goMethod, hs, addItems, execInv_reg_if]
      exact ⟨n, by simp [goCtr_append, hn, goCtrStep], hle, by simp, by simp⟩
    | unloaded =>
      have hn0 : n = 0 := hun hs
      subst hn0
      rw [step]
      simp only [goMethod, hs, addItems, execInv_reg_if]
      exact ⟨0, by simp [goCtr_append, hn, goCtrStep], by omega, by simp [hs], by simp [hs]⟩
  | stopOp =>
    cases hs : e.sess.state with
    | idle =>
      have hn0 : n = 0 := hid hs
      subst hn0
      rw [step]
      simp only [stopMethod, hs, addItems, waitsBestMove, execInv_reg_if]
      exact ⟨0, by simp [goCtr_append, hn, goCtrStep], by omega, by simp [hs], by simp [hs]⟩
    | running =>
      rw [step]
      simp only [stopMethod, hs, addItems, waitsBestMove, execInv_reg_if]
      exact ⟨n, by simp [goCtr_append, hn, goCtrStep, isGoItem], hle, by simp, by simp⟩
    | waitingBestMoveToIdle =>
      rw [step]
      simp only [stopMethod, hs, addItems, waitsBestMove, execInv_reg_if]
      exact ⟨n, by simp [goCtr_append, hn, goCtrStep], hle, by simp [hs], by simp [hs]⟩
    | waitingBestMoveToRun =>
      rw [step]
      simp only [stopMethod, hs, addItems, waitsBestMove, execInv_reg_if]
      exact ⟨n, by simp [goCtr_append, hn, goCtrStep], hle, by simp, by simp⟩
    | unloaded =>
      have hn0 : n = 0 := hun hs
      subst hn0
      rw [step]
      simp only [stopMethod, hs, addItems, waitsBestMove, execInv_reg_if]
      exact ⟨0, by simp [goCtr_append, hn, goCtrStep], by omega, by simp [hs], by simp [hs]⟩
  | positionOp p =>
    cases hs : e.sess.state with
    | idle =>
      have hn0 : n = 0 := hid hs
      subst hn0
      rw [step]
      simp only [positionMethod, hs, addItems, waitsBestMove, execInv_reg_if]
      exact ⟨0, by simp [goCtr_append, hn, goCtrStep], by omega, by simp [hs], by simp [hs]⟩
    | running =>
      rw [step]
      simp only [positionMethod, hs, addItems, waitsBestMove, execInv_reg_if]
      exact ⟨n, by simp [goCtr_append, hn, goCtrStep, isGoItem], hle, by simp, by simp⟩
    | waitingBestMoveToIdle =>
      rw [step]
      simp only [positionMethod, hs, addItems, waitsBestMove, execInv_reg_if]
      exact ⟨n, by simp [goCtr_append, hn, goCtrStep], hle, by simp, by simp⟩
    | waitingBestMoveToRun =>
      rw [step]
      simp only [positionMethod, hs, addItems, waitsBestMove, execInv_reg_if]
      exact ⟨n, by simp [goCtr_append, hn, goCtrStep], hle, by simp [hs], by simp [hs]⟩
    | unloaded =>
      have hn0 : n = 0 := hun hs
      subst hn0
      rw [step]
      simp only [positionMethod, hs, addItems, waitsBestMove, execInv_reg_if]
      exact ⟨0, by simp [goCtr_append, hn, goCtrStep], by omega, by simp [hs], by simp [hs]⟩
  | setOptionOp nm v =>
    rw [step]
    by_cases hs : e.sess.state = EngineState.idle
    · have hn0 : n = 0 := hid hs
      subst hn0
      rw [show setOptionMethod nm v e.sess = .ok (e.sess, [Cmd.setoption nm v]) from by
        simp [setOptionMethod, hs]]
      simp only [addItems]
      exact ⟨0, by simp [goCtr_append, hn, goCtrStep, isGoItem], by omega, by simp [hs],
        by simp [hs]⟩
    · rw [show setOptionMethod nm v e.sess =
          .error "Called setOption while engine is not in the stopped state." from by
        simp [setOptionMethod, hs]]
      exact ⟨n, hn, hle, hid, hun⟩
  | newGameFinishOp =>
    rw [step]
    simp only [addItems]
    exact ⟨n, by simp [goCtr_append, hn, goCtrStep, isGoItem], hle, hid, hun⟩
  | startOp =>
    rw [step]
    exact ⟨0, by simp [goCtr_append, hn, goCtrStep, isGoItem], by omega, by simp, by simp⟩
  | uciokEv =>
    rw [step]
    by_cases hs : e.sess.state = EngineState.unloaded
    · have hn0 : n = 0 := hun hs
      subst hn0
      rw [if_pos hs]
      exact ⟨0, hn, by omega, by simp, by simp⟩
    · rw [if_neg hs]
      exact ⟨n, hn, hle, hid, hun⟩
  | bestmoveEv m =>
    cases hs : e.sess.state with
    | idle =>
      rw [step]
      simp only [handleBestMove, hs]
      exact ⟨0, by simp [goCtr_append, hn, goCtrStep, isGoItem], by omega, by simp [hs],
        by simp [hs]⟩
    | running =>
      rw [step]
      simp only [handleBestMove, hs, addItems]
      exact ⟨0, by simp [goCtr_append, hn, goCtrStep, isGoItem], by omega, by simp, by simp⟩
    | waitingBestMoveToIdle =>
      rw [step]
      simp only [handleBestMove, hs, addItems]
      exact ⟨0, by simp [goCtr_append, hn, goCtrStep, isGoItem], by omega, by simp, by simp⟩
    | waitingBestMoveToRun =>
      rw [step]
      cases hp : e.sess.pendingPosition with
      | none =>
        simp only [handleBestMove, hs, hp, sendPendingPosition, addItems]
        exact ⟨1, by simp [goCtr_append, hn, goCtrStep, isGoItem], by omega, by simp, by simp⟩
      | some p =>
        simp only [handleBestMove, hs, hp, sendPendingPosition, addItems]
        exact ⟨1, by simp [goCtr_append, hn, goCtrStep, isGoItem], by omega, by simp, by simp⟩
    | unloaded =>
      rw [step]
      simp only [handleBestMove, hs, addItems]
      exact ⟨0, by simp [goCtr_append, hn, goCtrStep, isGoItem], by omega, by simp [hs],
        by simp [hs]⟩
  | readyokEv => exact ⟨n, hn, hle, hid, hun⟩
  | procExitEv => exact ⟨n, hn, hle, hid, hun⟩

/-- Running any event list preserves the invariant. -/
lemma execInv_run (e : Exec) (evs : List Ev) (h : ExecInv e) : ExecInv (runExec e evs) := by
  induction evs generalizing e with
  | nil => exact h
  | cons ev evs ih => exact ih (step e ev) (execInv_step e ev h)

/-- Whether an `Except` value is a success. -/
def exceptIsOk (r : Except String (Session × List Cmd)) : Bool :=
  match r with
  | .ok _ => true
  | .error _ => false

/-- JavaScript `Map.prototype.set` on the `chunks` map of the main-process
output aggregation: replaces the value stored under the key when present,
appends a new entry otherwise.  The key type is `Option String` because the
source keys by `info.pv[0]`, which is `undefined` when the principal
variation array is empty. -/
def chunksSet (chunks : List (Option String × UciMoveInfo)) (k : Option String)
    (v : UciMoveInfo) : List (Option String × UciMoveInfo) :=
  match chunks with
  | [] => [(k, v)]
  | (k', v') :: rest => if k' = k then (k, v) :: rest else (k', v') :: chunksSet rest k v

/-- JavaScript `Map.prototype.get` on the `chunks` map. -/
def chunksGet (chunks : List (Option String × UciMoveInfo)) (k : Option String) :
    Option UciMoveInfo :=
  match chunks with
  | [] => none
  | (k', v') :: rest => if k' = k then some v' else chunksGet rest k

/-- The main-process `info` listener feeding the output aggregation:
`engine.on("info", (info) => { if (info.pv) chunks.set(info.pv[0], info) })`.
The stored record is replaced unconditionally (last write wins); there is
no depth comparison here. -/
def aggregateInfo (chunks : List (Option String × UciMoveInfo)) (info : UciMoveInfo) :
    List (Option String × UciMoveInfo) :=
  match info.pv with
  | some pv => chunksSet chunks pv.head? info
  | none => chunks

/-- The eligibility filter of `Engine.processOutput` in
`src/renderer/src/engine.svelte.ts`: the flushed record takes part only
when it carries a depth, a non-empty principal variation and an unbounded
score. -/
def infoEligible (info : UciMoveInfo) : Bool :=
  info.depth.isSome &&
  (match info.pv with | some (_ :: _) => true | _ => false) &&
  (match info.score with | some sc => sc.bound.isNone | none => false)

/-- The replacement guard of `Engine.processOutput`:
`entry && (!entry.depth || info.depth >= entry.depth)`.  A stored entry with
no depth, or with the falsy depth `0`, is always replaced; otherwise only a
record of at least the stored depth replaces it. -/
def entryAccepts (entryDepth : Option Int) (infoDepth : Int) : Bool :=
  match entryDepth with
  | none => true
  | some d => d = 0 || infoDepth ≥ d

lemma chunksGet_set (chunks : List (Option String × UciMoveInfo)) (k : Option String)
    (v : UciMoveInfo) : chunksGet (chunksSet chunks k v) k = some v := by
  induction chunks with
  | nil => simp [chunksSet, chunksGet]
  | cons hd tl ih =>
    obtain ⟨k', v'⟩ := hd
    by_cases hk : k' = k
    · simp [chunksSet, chunksGet, hk]
    · simp [chunksSet, chunksGet, hk, ih]

/-- Outcome of an asynchronous wait on engine output: the promise resolves,
rejects on its timeout, or stays pending with no timeout attached.  The
line stream is split into the lines the process delivers before the moment
the timeout would fire (`early`) and the lines after it (`late`). -/
inductive WaitOutcome
  | resolved
  | timedOut (msg : String)
  | pendingForever
  deriving DecidableEq, Repr

/-- Outcome of `sendAndWaitFor(command, pred, timeoutMs, ...)`
(`src/main/uci-engine.ts`, the promise with a `setTimeout` rejection): it
resolves if a line satisfying `pred` arrives before the timeout fires, and
otherwise rejects with "`command` command timed out."; lines arriving after
the rejection cannot change the settled promise. -/
def sendAndWaitForOutcome (command : String) (pred : String → Bool)
    (early late : List String) : WaitOutcome :=
  if early.any pred then .resolved else .timedOut (command ++ " command timed out.")

/-- Outcome of the handshake wait inside `uci()`:
`sendAndWaitFor("uci", (line) => line === "uciok", timeoutMs, ...)`. -/
def uciHandshakeOutcome (early late : List String) : WaitOutcome :=
  sendAndWaitForOutcome "uci" (fun l => l = "uciok") early late

/-- Outcome of `isready()`:
`new Promise((resolve) => this.once("readyok", resolve))`.  No timeout is
attached, so the promise resolves if a `readyok` line ever arrives and
otherwise stays pending forever; it never rejects. -/
def isreadyOutcome (early late : List String) : WaitOutcome :=
  if (early ++ late).any (fun l => l = "readyok") then .resolved else .pendingForever

/-- Event sources of the spawned child process. -/
inductive ProcEvent
  | lineEv (s : String)
  | stderrData (s : String)
  | errEvent
  | exitEvent (code : Int)
  deriving DecidableEq, Repr

/-- What `UciEngine.start` does with each process event source. -/
inductive HandlerKind
  | parseAndHandle
  | warnOnly
  | rethrow
  | noHandler
  deriving DecidableEq, Repr

/-- The handlers `UciEngine.start` installs on the spawned process: stdout
lines (through the readline interface) go to `handleLine`, stderr data is
logged as a warning, an `error` event is rethrown from the callback; no
handler at all is registered for process exit. -/
def startHandlers : ProcEvent → HandlerKind
  | .lineEv _ => .parseAndHandle
  | .stderrData _ => .warnOnly
  | .errEvent => .rethrow
  | .exitEvent _ => .noHandler

/-- The context of a session with a search in flight: state `running`, no
pending intent, no registered waiters; earlier traffic elided. -/
def runningExec : Exec :=
  { sess := { state := .running, pendingPosition := none, pendingDepth := 0 },
    nextId := 0, waiting := [], resolutions := [], items := [], errors := [] }

/-- C1 (counterexample).  The claimed scenario — `go(20)` while idle, then
`position("p1")` and `position("p2")` while running, then the engine's
`bestmove` — does write exactly one `stop` and does restart with `p2` and
never `p1`, but the single `go` written after the `bestmove` is
`Cmd.go 0`, whose wire text is `go infinite`, not the claimed
`go depth 20`: `go(20)` cleared the pending depth when it issued the first
search, and `position` does not set it. -/
theorem c1_coalescing_counterexample :
    (runExec idleExec [.goOp 20, .positionOp "p1", .positionOp "p2", .bestmoveEv "e2e4"]).items =
      [Item.cmd (Cmd.go 20), Item.cmd Cmd.stop, Item.evBestmove,
        Item.cmd (Cmd.position "p2"), Item.cmd (Cmd.go 0)] ∧
    Cmd.render (Cmd.go 0) = "go infinite" ∧
    Cmd.render (Cmd.go 20) = "go depth 20" := by
  refine ⟨by decide, rfl, rfl⟩

/-- C1 (amended).  Coalescing under rapid position changes: from an idle
session with no pending intent, `go(d)` (any non-zero depth) followed by
two rapid `position` calls and the resulting `bestmove` writes exactly the
trace `go d`, one single `stop`, then — after the `bestmove` — exactly one
`position` carrying the latest position `p2` (never `p1`) and exactly one
new `go` command; that restart command is `go infinite` (pending depth
`0`), not `go depth d`. -/
theorem c1_coalescing_amended (e : Exec) (p1 p2 m : String) (d : Nat)
    (hs : e.sess = { state := .idle, pendingPosition := none, pendingDepth := 0 })
    (hd : d ≠ 0) :
    (runExec e [.goOp d, .positionOp p1, .positionOp p2, .bestmoveEv m]).items =
      e.items ++ [Item.cmd (Cmd.go d), Item.cmd Cmd.stop, Item.evBestmove,
        Item.cmd (Cmd.position p2), Item.cmd (Cmd.go 0)] ∧
    Cmd.render (Cmd.go 0) = "go infinite" := by
  constructor
  · simp [runExec, step, goMethod, positionMethod, handleBestMove, sendPendingPosition,
      addItems, registerFuture, waitsBestMove, hs, hd]
  · rfl

/-- C1 (witness). -/
theorem c1_coalescing_amended_witness :
    (idleExec.sess = { state := .idle, pendingPosition := none, pendingDepth := 0 } ∧
      (20 : Nat) ≠ 0) ∧
    (runExec idleExec [.goOp 20, .positionOp "a", .positionOp "b", .bestmoveEv "m"]).items =
      idleExec.items ++ [Item.cmd (Cmd.go 20), Item.cmd Cmd.stop, Item.evBestmove,
        Item.cmd (Cmd.position "b"), Item.cmd (Cmd.go 0)] ∧
    Cmd.render (Cmd.go 0) = "go infinite" :=
  ⟨⟨rfl, by decide⟩, c1_coalescing_amended idleExec "a" "b" "m" 20 rfl (by decide)⟩

/-- C2 (counterexample).  After `go(20)` from idle and `position("p1")`
while running, the session is in `waitingBestMoveToRun` (the spec's
`StoppingToRun`), and the two promises returned by those calls are
registered as waiters 0 and 1.  When the stale `bestmove a1a2` then
arrives, `handleLine` emits the `bestmove` event before any state
handling, so both waiters resolve with the stale move — contradicting the
claim that futures are not resolved with it. -/
theorem c2_stale_bestmove_counterexample :
    (runExec idleExec [.goOp 20, .positionOp "p1"]).sess.state =
      EngineState.waitingBestMoveToRun ∧
    (runExec idleExec [.goOp 20, .positionOp "p1"]).waiting = [0, 1] ∧
    (runExec idleExec [.goOp 20, .positionOp "p1", .bestmoveEv "a1a2"]).resolutions =
      [(0, "a1a2"), (1, "a1a2")] := by
  refine ⟨by decide, by decide, by decide⟩

/-- C2 (amended).  A `bestmove` received while the state is
`waitingBestMoveToRun` resolves every registered waiter — the futures
returned by `go(depth>0)`, `stop()` and `position()` — with that stale
move, because `handleLine` emits the `bestmove` event unconditionally
before `handleBestMove` runs.  The state machine itself does restart
silently on the latest intent: the state returns to `running` and the
pending position (if any) and a `go` with the pending depth are written
after the `bestmove`. -/
theorem c2_stale_bestmove_amended (e : Exec) (m : String)
    (h : e.sess.state = EngineState.waitingBestMoveToRun) :
    (step e (.bestmoveEv m)).resolutions =
      e.resolutions ++ e.waiting.map (fun id => (id, m)) ∧
    (step e (.bestmoveEv m)).sess.state = EngineState.running ∧
    (step e (.bestmoveEv m)).items =
      e.items ++ [Item.evBestmove] ++
        ((sendPendingPosition { e.sess with state := .running }).2 ++
          [Cmd.go e.sess.pendingDepth]).map Item.cmd := by
  cases hp : e.sess.pendingPosition with
  | none =>
    refine ⟨?_, ?_, ?_⟩ <;>
      simp [step, handleBestMove, h, hp, sendPendingPosition, addItems]
  | some p =>
    refine ⟨?_, ?_, ?_⟩ <;>
      simp [step, handleBestMove, h, hp, sendPendingPosition, addItems]

/-- C2 (witness). -/
theorem c2_stale_bestmove_amended_witness :
    (runExec idleExec [.goOp 20, .positionOp "p1"]).sess.state =
      EngineState.waitingBestMoveToRun ∧
    ((step (runExec idleExec [.goOp 20, .positionOp "p1"]) (.bestmoveEv "a1a2")).resolutions =
      (runExec idleExec [.goOp 20, .positionOp "p1"]).resolutions ++
        (runExec idleExec [.goOp 20, .positionOp "p1"]).waiting.map (fun id => (id, "a1a2")) ∧
    (step (runExec idleExec [.goOp 20, .positionOp "p1"]) (.bestmoveEv "a1a2")).sess.state =
      EngineState.running ∧
    (step (runExec idleExec [.goOp 20, .positionOp "p1"]) (.bestmoveEv "a1a2")).items =
      (runExec idleExec [.goOp 20, .positionOp "p1"]).items ++ [Item.evBestmove] ++
        ((sendPendingPosition
            { (runExec idleExec [.goOp 20, .positionOp "p1"]).sess with state := .running }).2 ++
          [Cmd.go (runExec idleExec [.goOp 20, .positionOp "p1"]).sess.pendingDepth]).map
            Item.cmd) :=
  ⟨by decide, c2_stale_bestmove_amended (runExec idleExec [.goOp 20, .positionOp "p1"])
    "a1a2" (by decide)⟩

/-- C3.  Over every sequence of operations and engine events from the
initial session, the session state is always one of the five defined
states, and the item trace at the process boundary is alternation-clean:
the process never receives two `go` command lines without an intervening
`bestmove` event (within the lifetime of one spawned process). -/
theorem c3_states_closed_go_alternation (evs : List Ev) :
    ((runExec initExec evs).sess.state = EngineState.unloaded ∨
     (runExec initExec evs).sess.state = EngineState.idle ∨
     (runExec initExec evs).sess.state = EngineState.running ∨
     (runExec initExec evs).sess.state = EngineState.waitingBestMoveToIdle ∨
     (runExec initExec evs).sess.state = EngineState.waitingBestMoveToRun) ∧
    goAlternationOk (runExec initExec evs).items = true := by
  constructor
  · cases h : (runExec initExec evs).sess.state <;> simp [h]
  · have h := execInv_run initExec evs ⟨0, rfl, by omega, fun _ => rfl, fun _ => rfl⟩
    obtain ⟨n, hn, -, -, -⟩ := h
    simp [goAlternationOk, hn]

/-- Two progress records for the same candidate move `e2e4`, the second at
a lower depth than the first. -/
def infoDepth10 : UciMoveInfo := { depth := some 10, pv := some ["e2e4"] }

/-- See `infoDepth10`. -/
def infoDepth3 : UciMoveInfo := { depth := some 3, pv := some ["e2e4"] }

/-- C4 (counterexample).  The pre-flush aggregator keyed by `info.pv[0]`
replaces unconditionally: after a record of depth 10 for `e2e4`, a record
of depth 3 for the same key overwrites it before any flush, so a record
with depth `< d` does replace a stored record of depth `d`. -/
theorem c4_aggregator_counterexample :
    chunksGet (aggregateInfo (aggregateInfo [] infoDepth10) infoDepth3) (some "e2e4") =
      some infoDepth3 ∧
    infoDepth10.depth = some 10 ∧ infoDepth3.depth = some 3 := by
  refine ⟨by decide, rfl, rfl⟩

/-- C4 (amended).  The main-process aggregator is last-write-wins: any
record with a non-empty principal variation is stored for its first move,
replacing whatever was stored.  The monotonic depth rule lives downstream,
in `Engine.processOutput`: a flushed record overwrites a stored per-move
analysis only when the stored depth is unset or the falsy `0`, or the new
depth is at least the stored depth — so for a stored positive depth `ed`,
acceptance implies `d ≥ ed`. -/
theorem c4_aggregator_amended :
    (∀ (chunks : List (Option String × UciMoveInfo)) (info : UciMoveInfo) (m : String)
        (tl : List String), info.pv = some (m :: tl) →
        chunksGet (aggregateInfo chunks info) (some m) = some info) ∧
    (∀ (ed d : Int), ed ≠ 0 → entryAccepts (some ed) d = true → d ≥ ed) := by
  constructor
  · intro chunks info m tl hpv
    simp [aggregateInfo, hpv, chunksGet_set]
  · intro ed d hed hacc
    simp [entryAccepts, hed] at hacc
    exact hacc

/-- C4 (witness). -/
theorem c4_aggregator_amended_witness :
    infoDepth3.pv = some ("e2e4" :: []) ∧
    chunksGet (aggregateInfo [] infoDepth3) (some "e2e4") = some infoDepth3 ∧
    (5 : Int) ≠ 0 ∧ entryAccepts (some 5) 7 = true ∧ (7 : Int) ≥ 5 :=
  ⟨rfl, c4_aggregator_amended.1 [] infoDepth3 "e2e4" [] rfl, by decide, by decide,
    c4_aggregator_amended.2 5 7 (by decide) (by decide)⟩

/-- C5.  `stop()` is idempotent on the wire: two immediate calls starting
from `running` write exactly one `stop` line in total; the first moves the
session to `waitingBestMoveToIdle` and the second changes nothing in the
session fields (only promise bookkeeping happens). -/
theorem c5_stop_idempotent (e : Exec) (h : e.sess.state = EngineState.running) :
    (step (step e .stopOp) .stopOp).items = e.items ++ [Item.cmd Cmd.stop] ∧
    (step e .stopOp).sess.state = EngineState.waitingBestMoveToIdle ∧
    (step (step e .stopOp) .stopOp).sess = (step e .stopOp).sess := by
  refine ⟨?_, ?_, ?_⟩ <;>
    simp [step, stopMethod, h, addItems, waitsBestMove, registerFuture]

/-- C5 (witness). -/
theorem c5_stop_idempotent_witness :
    runningExec.sess.state = EngineState.running ∧
    ((step (step runningExec .stopOp) .stopOp).items =
        runningExec.items ++ [Item.cmd Cmd.stop] ∧
      (step runningExec .stopOp).sess.state = EngineState.waitingBestMoveToIdle ∧
      (step (step runningExec .stopOp) .stopOp).sess = (step runningExec .stopOp).sess) :=
  ⟨rfl, c5_stop_idempotent runningExec rfl⟩

/-- C6.  `setOption` in any state other than `idle` throws
"Called setOption while engine is not in the stopped state." (the
`InvalidStateTransition` failure of the specification) before any `send`:
the only change to the execution context is the recorded error — no
protocol write, no state change, no change to the pending intent or to the
registered waiters. -/
theorem c6_setoption_invalid_state (e : Exec) (nm v : String)
    (h : e.sess.state ≠ EngineState.idle) :
    step e (.setOptionOp nm v) =
      { e with errors :=
          e.errors ++ ["Called setOption while engine is not in the stopped state."] } := by
  rw [step, show setOptionMethod nm v e.sess =
    .error "Called setOption while engine is not in the stopped state." from by
      simp [setOptionMethod, h]]

/-- C6 (witness): `setOption("Hash", "256")` while `running`. -/
theorem c6_setoption_invalid_state_witness :
    runningExec.sess.state ≠ EngineState.idle ∧
    step runningExec (.setOptionOp "Hash" "256") =
      { runningExec with errors :=
          runningExec.errors ++
            ["Called setOption while engine is not in the stopped state."] } :=
  ⟨by decide, c6_setoption_invalid_state runningExec "Hash" "256" (by decide)⟩

/-- C7.  Scenario A: the quoted `info` line parses to depth 12, selective
depth 18, multi-PV index 1, an unbounded centipawn score of 34, 500000
nodes, 2500000 nodes per second and principal variation `e2e4 e7e5` (the
specification's field names `selectiveDepth`, `multiPvIndex`,
`nodesPerSecond`, `principalVariation` are `seldepth`, `multipv`, `nps`,
`pv` here, following the source).  Moreover, on any line, a key token
outside the known set consumes exactly one following token, stored
verbatim in the dynamic `extra` part of the record, and the walk
continues — it is neither dropped nor an error. -/
theorem c7_parse_info_line :
    parseUciMoveInfo
        "info depth 12 seldepth 18 multipv 1 score cp 34 nodes 500000 nps 2500000 pv e2e4 e7e5" =
      .ok { depth := some 12, seldepth := some 18, multipv := some 1,
            score := some { type := "cp", value := some 34, bound := none },
            nodes := some 500000, nps := some 2500000, pv := some ["e2e4", "e7e5"] } ∧
    ∀ (info : UciMoveInfo) (key v : String) (rest : List String), key ∉ knownKeys →
      walk info (key :: v :: rest) =
        walk { info with extra := setAssoc info.extra key (some v) } rest := by
  constructor
  · rfl
  · intro info key v rest h
    have hu := walkStep_unknown info key (v :: rest) h
    have hfuel := walkAux_fuel (rest.length + 1) rest.length
      { info with extra := setAssoc info.extra key (some v) } rest (by omega) (by omega)
    calc walk info (key :: v :: rest)
        = walkAux (rest.length + 1)
            { info with extra := setAssoc info.extra key (some v) } rest := by
          show walkAux (rest.length + 1 + 1) info (key :: v :: rest) = _
          simp only [walkAux, hu, List.head?_cons, List.tail_cons]
      _ = walk { info with extra := setAssoc info.extra key (some v) } rest := hfuel

/-- C7 (witness): the unknown key `wdl` consumes one token. -/
theorem c7_parse_info_line_witness :
    "wdl" ∉ knownKeys ∧
    walk {} ["wdl", "310", "pv"] = walk { extra := [("wdl", some "310")] } ["pv"] :=
  ⟨by decide, c7_parse_info_line.2 {} "wdl" "310" ["pv"] (by decide)⟩

/-- C8 (counterexample).  On a line stream that never delivers `readyok`,
the wait used by `newGame` (through `isready`) stays pending forever — it
has no timeout attached and never rejects — while the `uci` handshake wait
on a stream that never delivers `uciok` does reject with its timeout
message.  This contradicts the claim that `newGame`'s `readyok` wait
rejects with `Timeout`. -/
theorem c8_timeout_counterexample :
    isreadyOutcome [] [] = WaitOutcome.pendingForever ∧
    uciHandshakeOutcome [] [] = WaitOutcome.timedOut "uci command timed out." := by
  refine ⟨rfl, rfl⟩

/-- C8 (amended).  The `uci -> uciok` handshake wait inside `start` is the
only wait with an explicit timeout: when no `uciok` arrives before the
timeout fires, `start` rejects with "uci command timed out.".  `newGame`'s
wait for `readyok` has no timeout: it never rejects — it resolves if a
`readyok` line ever arrives and otherwise stays pending forever. -/
theorem c8_timeout_amended (early late : List String) (h : "uciok" ∉ early) :
    uciHandshakeOutcome early late = WaitOutcome.timedOut "uci command timed out." ∧
    (∀ msg, isreadyOutcome early late ≠ WaitOutcome.timedOut msg) := by
  constructor
  · have hany : early.any (fun l => l = "uciok") = false := by
      simp only [List.any_eq_false, decide_eq_true_eq]
      intro x hx heq
      exact h (heq ▸ hx)
    simp [uciHandshakeOutcome, sendAndWaitForOutcome, hany]
  · intro msg
    unfold isreadyOutcome
    split <;> simp

/-- C8 (witness). -/
theorem c8_timeout_amended_witness :
    "uciok" ∉ (["id name x"] : List String) ∧
    uciHandshakeOutcome ["id name x"] [] = WaitOutcome.timedOut "uci command timed out." ∧
    isreadyOutcome ["id name x"] [] ≠ WaitOutcome.timedOut "isready command timed out." :=
  ⟨by decide, (c8_timeout_amended ["id name x"] [] (by decide)).1,
    (c8_timeout_amended ["id name x"] [] (by decide)).2 "isready command timed out."⟩

/-- C9 (counterexample).  `start` installs no handler for process exit.
After `go(5)` from idle, waiter 0 is outstanding; a process exit then
resolves nothing, rejects nothing, raises nothing and emits no
notification: the waiter is left pending forever, contradicting the claim
that the outstanding future is rejected and an `Exited` notification
surfaced. -/
theorem c9_exit_counterexample :
    startHandlers (ProcEvent.exitEvent 1) = HandlerKind.noHandler ∧
    (runExec idleExec [.goOp 5, .procExitEv]).waiting = [0] ∧
    (runExec idleExec [.goOp 5, .procExitEv]).resolutions = [] ∧
    (runExec idleExec [.goOp 5, .procExitEv]).errors = [] := by
  refine ⟨rfl, by decide, by decide, by decide⟩

/-- C9 (amended).  A process exit is invisible to the session: no exit
handler is registered, so the step for a process exit changes nothing —
outstanding futures stay pending (neither resolved nor rejected), no
`Exited` notification is produced, and (the true part of the claim) the
session does not restart the process. -/
theorem c9_exit_amended (e : Exec) (c : Int) :
    step e .procExitEv = e ∧ startHandlers (ProcEvent.exitEvent c) = HandlerKind.noHandler :=
  ⟨rfl, rfl⟩

/-- C10.  `handleBestMove` throws "handleBestMove: Should not be in state
idle." when the state is `idle`, silently ignores the event when
`unloaded` (the `default` arm, session unchanged, nothing written), and
succeeds without error in `running`, `waitingBestMoveToIdle` and
`waitingBestMoveToRun` — so under the invariant that `bestmove` events
only occur in those three states, the error branch is unreachable. -/
theorem c10_bestmove_in_idle_errors (p : Option String) (d : Nat) :
    handleBestMove { state := .idle, pendingPosition := p, pendingDepth := d } =
      .error "handleBestMove: Should not be in state idle." ∧
    handleBestMove { state := .unloaded, pendingPosition := p, pendingDepth := d } =
      .ok ({ state := .unloaded, pendingPosition := p, pendingDepth := d }, []) ∧
    exceptIsOk (handleBestMove
      { state := .running, pendingPosition := p, pendingDepth := d }) = true ∧
    exceptIsOk (handleBestMove
      { state := .waitingBestMoveToIdle, pendingPosition := p, pendingDepth := d }) = true ∧
    exceptIsOk (handleBestMove
      { state := .waitingBestMoveToRun, pendingPosition := p, pendingDepth := d }) = true := by
  refine ⟨rfl, rfl, rfl, rfl, ?_⟩
  cases p <;> rfl

end MaiaFish
